import Mathlib

set_option maxRecDepth 8000

/-!
# Verification of the XDCPrivacy cryptographic core

Shallow embedding of the encryption service (`createEncryptedEnvelope`,
`decryptEnvelope`, `generateCommitment`, `verifyCommitment`, `signData`,
`verifySignature`, `buildMerkleTree`, `generateMerkleProof`) and of the
`POST /disclosures/verify` route handler, together with proofs about them.

Modelling conventions, used consistently below:
* the keccak-256 digest, the SHA-256 KDF, AES-256-GCM and the secp256k1
  group operations are platform/library primitives, not repository code;
  they are modelled as ideal executable stand-ins (an injective digest,
  an ideal authenticated cipher, a commutative scalar/point product);
* randomness (DEKs, ivs, nonces, ephemeral scalars) is passed explicitly;
* JSON serialization of structured payloads is modelled as an injective
  canonical encoding, and the JSON transport wrappers around structured
  values (the wrapped-key bundle, the proof array) are kept structural.
-/

namespace XDCPrivacy

/-! ## Hexadecimal digits -/

/-- Hex digit character for a value below 16 (0-9, a-f), as produced by the
JS runtime's hexadecimal encoders. -/
def digitCharHex (d : Nat) : Char :=
  if d < 10 then Char.ofNat (48 + d) else Char.ofNat (87 + d)

/-- Little-endian base-16 digit list of a natural number (fuel-based so that
it is kernel-computable). -/
def hexDigitsAux : Nat → Nat → List Nat
  | _, 0 => []
  | 0, _ + 1 => []
  | fuel + 1, n + 1 => ((n + 1) % 16) :: hexDigitsAux fuel ((n + 1) / 16)

/-- Little-endian base-16 digit list of a natural number. -/
def hexDigits (n : Nat) : List Nat := hexDigitsAux n n

theorem hexDigitsAux_ofDigits : ∀ fuel n, n ≤ fuel →
    Nat.ofDigits 16 (hexDigitsAux fuel n) = n := by
  intro fuel
  induction fuel with
  | zero => intro n hn; interval_cases n; rfl
  | succ f ih =>
    intro n hn
    match n with
    | 0 => rfl
    | m + 1 =>
      rw [hexDigitsAux, Nat.ofDigits_cons, ih ((m + 1) / 16) ?_]
      · omega
      · have : (m + 1) / 16 < m + 1 := Nat.div_lt_self (by omega) (by omega)
        omega

theorem ofDigits_hexDigits (n : Nat) : Nat.ofDigits 16 (hexDigits n) = n :=
  hexDigitsAux_ofDigits n n le_rfl

theorem hexDigits_inj {m n : Nat} (h : hexDigits m = hexDigits n) : m = n := by
  have hm := ofDigits_hexDigits m
  have hn := ofDigits_hexDigits n
  rw [h] at hm
  omega

theorem hexDigitsAux_lt_base : ∀ fuel n, ∀ d ∈ hexDigitsAux fuel n, d < 16 := by
  intro fuel
  induction fuel with
  | zero =>
    intro n d hd
    match n with
    | 0 => simp [hexDigitsAux] at hd
    | _ + 1 => simp [hexDigitsAux] at hd
  | succ f ih =>
    intro n d hd
    match n with
    | 0 => simp [hexDigitsAux] at hd
    | m + 1 =>
      rw [hexDigitsAux] at hd
      rcases List.mem_cons.mp hd with h1 | h2
      · omega
      · exact ih _ d h2

theorem hexDigits_lt_base {n d : Nat} (hd : d ∈ hexDigits n) : d < 16 :=
  hexDigitsAux_lt_base n n d hd

/-- Little-endian hex character list of a natural number. -/
def natHexChars (n : Nat) : List Char := (hexDigits n).map digitCharHex

/-- Hex string encoding of a natural number: the model of the hex encodings
of scalars, curve points and byte buffers used throughout the source. -/
def natHexStr (n : Nat) : String := String.mk (natHexChars n)

theorem digitCharHex_inj_lt : ∀ d < 16, ∀ e < 16,
    digitCharHex d = digitCharHex e → d = e := by decide

theorem digitCharHex_ne_g : ∀ d < 16, digitCharHex d ≠ 'g' := by decide

theorem digitCharHex_toLower : ∀ d < 16, (digitCharHex d).toLower = digitCharHex d := by
  decide

theorem digitCharHex_ne_x : ∀ d < 16, digitCharHex d ≠ 'x' := by decide

theorem map_digitCharHex_inj : ∀ l1 l2 : List Nat, (∀ d ∈ l1, d < 16) →
    (∀ d ∈ l2, d < 16) → l1.map digitCharHex = l2.map digitCharHex → l1 = l2 := by
  intro l1
  induction l1 with
  | nil =>
    intro l2 _ _ h
    cases l2 with
    | nil => rfl
    | cons b bs => simp at h
  | cons a as ih =>
    intro l2 h1 h2 h
    cases l2 with
    | nil => simp at h
    | cons b bs =>
      simp only [List.map_cons, List.cons.injEq] at h
      have ha : a < 16 := h1 a (List.mem_cons_self a as)
      have hb : b < 16 := h2 b (List.mem_cons_self b bs)
      rw [digitCharHex_inj_lt a ha b hb h.1,
        ih bs (fun d hd => h1 d (List.mem_cons_of_mem a hd))
          (fun d hd => h2 d (List.mem_cons_of_mem b hd)) h.2]

theorem natHexChars_inj {m n : Nat} (h : natHexChars m = natHexChars n) : m = n :=
  hexDigits_inj (map_digitCharHex_inj _ _ (fun _ hd => hexDigits_lt_base hd)
    (fun _ hd => hexDigits_lt_base hd) h)

theorem natHexStr_inj {m n : Nat} (h : natHexStr m = natHexStr n) : m = n :=
  natHexChars_inj (congrArg String.data h)

theorem natHexChars_ne_g {n : Nat} : ∀ c ∈ natHexChars n, c ≠ 'g' := by
  intro c hc
  rcases List.mem_map.mp hc with ⟨d, hd, hdc⟩
  rw [← hdc]
  exact digitCharHex_ne_g d (hexDigits_lt_base hd)

/-! ## Hex parsing (model of hex-string decoding in the EC library) -/

/-- Whether a character is a lowercase hex digit. -/
def isHexDigit (c : Char) : Bool :=
  (48 ≤ c.toNat && c.toNat ≤ 57) || (97 ≤ c.toNat && c.toNat ≤ 102)

/-- Numeric value of a hex digit character. -/
def hexVal (c : Char) : Nat :=
  if c.toNat ≤ 57 then c.toNat - 48 else c.toNat - 87

/-- Parse a hex string to a natural number, rejecting malformed key
material (model of the scalar/point parsing inside the elliptic library). -/
def parseHexNat (s : String) : Option Nat :=
  if s.data.all isHexDigit then some (Nat.ofDigits 16 (s.data.map hexVal)) else none

theorem isHexDigit_digitCharHex : ∀ d < 16, isHexDigit (digitCharHex d) = true := by
  decide

theorem hexVal_digitCharHex : ∀ d < 16, hexVal (digitCharHex d) = d := by decide

theorem parseHexNat_natHexStr (n : Nat) : parseHexNat (natHexStr n) = some n := by
  unfold parseHexNat natHexStr natHexChars
  have hall : (String.mk ((hexDigits n).map digitCharHex)).data.all isHexDigit = true := by
    rw [List.all_eq_true]
    intro c hc
    rcases List.mem_map.mp hc with ⟨d, hd, hdc⟩
    rw [← hdc]
    exact isHexDigit_digitCharHex d (hexDigits_lt_base hd)
  rw [hall]
  simp only [if_true]
  congr 1
  have : ((hexDigits n).map digitCharHex).map hexVal = hexDigits n := by
    rw [List.map_map]
    have := List.map_congr_left (l := hexDigits n)
      (f := hexVal ∘ digitCharHex) (g := id)
      (fun d hd => hexVal_digitCharHex d (hexDigits_lt_base hd))
    rw [this, List.map_id]
  rw [this, ofDigits_hexDigits]

/-! ## The keccak-256 digest model -/

/-- Model of the keccak-256 hex digest (js-sha3 `keccak256`): an injective
executable stand-in.  Each input character is rendered as its hex code
followed by a terminator character; the real digest is idealized as
collision-free, which is the property the code relies on. -/
def keccak256 (s : String) : String :=
  String.mk ((s.data.map (fun c => natHexChars c.toNat ++ ['g'])).flatten)

theorem append_mark_inj {α : Type} {m : α} :
    ∀ (xs ys r r' : List α), m ∉ xs → m ∉ ys →
    xs ++ m :: r = ys ++ m :: r' → xs = ys ∧ r = r' := by
  intro xs
  induction xs with
  | nil =>
    intro ys r r' _ hy h
    cases ys with
    | nil => simpa using h
    | cons b bs =>
      simp only [List.nil_append, List.cons_append, List.cons.injEq] at h
      simp only [List.mem_cons, not_or] at hy
      exact absurd h.1 hy.1
  | cons a as ih =>
    intro ys r r' hx hy h
    cases ys with
    | nil =>
      simp only [List.cons_append, List.nil_append, List.cons.injEq] at h
      simp only [List.mem_cons, not_or] at hx
      exact absurd h.1.symm hx.1
    | cons b bs =>
      simp only [List.cons_append, List.cons.injEq] at h
      have tail := ih bs r r' (fun hm => hx (List.mem_cons_of_mem a hm))
        (fun hm => hy (List.mem_cons_of_mem b hm)) h.2
      exact ⟨by rw [h.1, tail.1], tail.2⟩

theorem keccak_blocks_inj : ∀ l l' : List Char,
    (l.map (fun c => natHexChars c.toNat ++ ['g'])).flatten =
      (l'.map (fun c => natHexChars c.toNat ++ ['g'])).flatten → l = l' := by
  intro l
  induction l with
  | nil =>
    intro l' h
    cases l' with
    | nil => rfl
    | cons b bs =>
      have hlen := congrArg List.length h
      simp only [List.map_nil, List.flatten_nil, List.map_cons, List.flatten_cons,
        List.length_nil, List.length_append, List.length_cons] at hlen
      omega
  | cons a as ih =>
    intro l' h
    cases l' with
    | nil =>
      have hlen := congrArg List.length h
      simp only [List.map_nil, List.flatten_nil, List.map_cons, List.flatten_cons,
        List.length_nil, List.length_append, List.length_cons] at hlen
      omega
    | cons b bs =>
      simp only [List.map_cons, List.flatten_cons, List.append_assoc,
        List.singleton_append] at h
      have hsplit := append_mark_inj _ _ _ _
        (fun hm => natHexChars_ne_g 'g' hm rfl)
        (fun hm => natHexChars_ne_g 'g' hm rfl) h
      have hchar : a = b := by
        have hnat := natHexChars_inj hsplit.1
        have h2 := congrArg Char.ofNat hnat
        rwa [Char.ofNat_toNat, Char.ofNat_toNat] at h2
      rw [hchar, ih bs hsplit.2]

theorem keccak256_inj {s t : String} (h : keccak256 s = keccak256 t) : s = t :=
  String.ext (keccak_blocks_inj s.data t.data (congrArg String.data h))

theorem keccak256_chars {s : String} :
    ∀ c ∈ (keccak256 s).data, c.toLower = c ∧ c ≠ 'x' := by
  intro c hc
  unfold keccak256 at hc
  simp only [String.data] at hc
  rcases List.mem_flatten.mp hc with ⟨blk, hblk, hcb⟩
  rcases List.mem_map.mp hblk with ⟨a, _, hab⟩
  rw [← hab] at hcb
  rcases List.mem_append.mp hcb with hhex | hg
  · rcases List.mem_map.mp hhex with ⟨d, hd, hdc⟩
    have hd16 := hexDigits_lt_base hd
    rw [← hdc]
    exact ⟨digitCharHex_toLower d hd16, digitCharHex_ne_x d hd16⟩
  · have : c = 'g' := by simpa using hg
    rw [this]
    exact ⟨by decide, by decide⟩



/-! ## Structured payloads and their canonical serialization -/

mutual
/-- Structured JSON-like payload values: the model of the untyped `any`
payloads passed to the encryption, commitment and disclosure operations. -/
inductive Json where
  | null : Json
  | bool (b : Bool) : Json
  | num (n : Int) : Json
  | str (s : String) : Json
  | arr (items : JsonList) : Json
  | obj (fields : JsonObj) : Json

/-- A list of payload values. -/
inductive JsonList where
  | nil : JsonList
  | cons (hd : Json) (tl : JsonList) : JsonList

/-- An ordered association of field names to payload values. -/
inductive JsonObj where
  | nil : JsonObj
  | cons (key : String) (val : Json) (tl : JsonObj) : JsonObj
end

/-- Injective numeric code of an integer. -/
def intCode : Int → Nat
  | .ofNat n => 2 * n
  | .negSucc n => 2 * n + 1

theorem intCode_inj : ∀ i j : Int, intCode i = intCode j → i = j := by
  intro i j h
  cases i <;> cases j <;> simp only [intCode] at h <;> (congr 1; omega)

/-- Injective numeric code of a character list. -/
def charsCode : List Char → Nat
  | [] => 0
  | c :: cs => Nat.pair c.toNat (charsCode cs) + 1

theorem charsCode_inj : ∀ l1 l2 : List Char, charsCode l1 = charsCode l2 → l1 = l2 := by
  intro l1
  induction l1 with
  | nil =>
    intro l2 h
    cases l2 with
    | nil => rfl
    | cons b bs => simp only [charsCode] at h; omega
  | cons a as ih =>
    intro l2 h
    cases l2 with
    | nil => simp only [charsCode] at h; omega
    | cons b bs =>
      simp only [charsCode] at h
      have h2 := Nat.pair_eq_pair.mp (Nat.add_right_cancel h)
      have hc : a = b := by
        have := congrArg Char.ofNat h2.1
        rwa [Char.ofNat_toNat, Char.ofNat_toNat] at this
      rw [hc, ih bs h2.2]

/-- Injective numeric code of a string. -/
def strCode (s : String) : Nat := charsCode s.data

theorem strCode_inj {s t : String} (h : strCode s = strCode t) : s = t :=
  String.ext (charsCode_inj _ _ h)

mutual
/-- Injective numeric code of a payload, the basis of the canonical
serialization model. -/
def jsonCode : Json → Nat
  | .null => Nat.pair 0 0
  | .bool b => Nat.pair 1 (cond b 1 0)
  | .num n => Nat.pair 2 (intCode n)
  | .str s => Nat.pair 3 (strCode s)
  | .arr l => Nat.pair 4 (jsonListCode l)
  | .obj o => Nat.pair 5 (jsonObjCode o)

/-- Injective numeric code of a payload list. -/
def jsonListCode : JsonList → Nat
  | .nil => 0
  | .cons h t => Nat.pair (jsonCode h) (jsonListCode t) + 1

/-- Injective numeric code of a payload object. -/
def jsonObjCode : JsonObj → Nat
  | .nil => 0
  | .cons k v t => Nat.pair (strCode k) (Nat.pair (jsonCode v) (jsonObjCode t)) + 1
end

mutual
theorem jsonCode_inj : ∀ a b : Json, jsonCode a = jsonCode b → a = b
  | .null, .null, _ => rfl
  | .null, .bool _, h => by simp [jsonCode, Nat.pair_eq_pair] at h
  | .null, .num _, h => by simp [jsonCode, Nat.pair_eq_pair] at h
  | .null, .str _, h => by simp [jsonCode, Nat.pair_eq_pair] at h
  | .null, .arr _, h => by simp [jsonCode, Nat.pair_eq_pair] at h
  | .null, .obj _, h => by simp [jsonCode, Nat.pair_eq_pair] at h
  | .bool _, .null, h => by simp [jsonCode, Nat.pair_eq_pair] at h
  | .bool _, .num _, h => by simp [jsonCode, Nat.pair_eq_pair] at h
  | .bool _, .str _, h => by simp [jsonCode, Nat.pair_eq_pair] at h
  | .bool _, .arr _, h => by simp [jsonCode, Nat.pair_eq_pair] at h
  | .bool _, .obj _, h => by simp [jsonCode, Nat.pair_eq_pair] at h
  | .num _, .null, h => by simp [jsonCode, Nat.pair_eq_pair] at h
  | .num _, .bool _, h => by simp [jsonCode, Nat.pair_eq_pair] at h
  | .num _, .str _, h => by simp [jsonCode, Nat.pair_eq_pair] at h
  | .num _, .arr _, h => by simp [jsonCode, Nat.pair_eq_pair] at h
  | .num _, .obj _, h => by simp [jsonCode, Nat.pair_eq_pair] at h
  | .str _, .null, h => by simp [jsonCode, Nat.pair_eq_pair] at h
  | .str _, .bool _, h => by simp [jsonCode, Nat.pair_eq_pair] at h
  | .str _, .num _, h => by simp [jsonCode, Nat.pair_eq_pair] at h
  | .str _, .arr _, h => by simp [jsonCode, Nat.pair_eq_pair] at h
  | .str _, .obj _, h => by simp [jsonCode, Nat.pair_eq_pair] at h
  | .arr _, .null, h => by simp [jsonCode, Nat.pair_eq_pair] at h
  | .arr _, .bool _, h => by simp [jsonCode, Nat.pair_eq_pair] at h
  | .arr _, .num _, h => by simp [jsonCode, Nat.pair_eq_pair] at h
  | .arr _, .str _, h => by simp [jsonCode, Nat.pair_eq_pair] at h
  | .arr _, .obj _, h => by simp [jsonCode, Nat.pair_eq_pair] at h
  | .obj _, .null, h => by simp [jsonCode, Nat.pair_eq_pair] at h
  | .obj _, .bool _, h => by simp [jsonCode, Nat.pair_eq_pair] at h
  | .obj _, .num _, h => by simp [jsonCode, Nat.pair_eq_pair] at h
  | .obj _, .str _, h => by simp [jsonCode, Nat.pair_eq_pair] at h
  | .obj _, .arr _, h => by simp [jsonCode, Nat.pair_eq_pair] at h
  | .bool b, .bool b', h => by
      cases b <;> cases b' <;> simp_all [jsonCode, Nat.pair_eq_pair]
  | .num n, .num n', h =>
      congrArg Json.num (intCode_inj n n' (Nat.pair_eq_pair.mp h).2)
  | .str s, .str s', h =>
      congrArg Json.str (strCode_inj (Nat.pair_eq_pair.mp h).2)
  | .arr l, .arr l', h =>
      congrArg Json.arr (jsonListCode_inj l l' (Nat.pair_eq_pair.mp h).2)
  | .obj o, .obj o', h =>
      congrArg Json.obj (jsonObjCode_inj o o' (Nat.pair_eq_pair.mp h).2)

theorem jsonListCode_inj : ∀ a b : JsonList, jsonListCode a = jsonListCode b → a = b
  | .nil, .nil, _ => rfl
  | .nil, .cons _ _, h => by simp only [jsonListCode] at h; omega
  | .cons _ _, .nil, h => by simp only [jsonListCode] at h; omega
  | .cons a t, .cons a' t', h => by
      have h2 := Nat.pair_eq_pair.mp (Nat.add_right_cancel h)
      rw [jsonCode_inj a a' h2.1, jsonListCode_inj t t' h2.2]

theorem jsonObjCode_inj : ∀ a b : JsonObj, jsonObjCode a = jsonObjCode b → a = b
  | .nil, .nil, _ => rfl
  | .nil, .cons _ _ _, h => by simp only [jsonObjCode] at h; omega
  | .cons _ _ _, .nil, h => by simp only [jsonObjCode] at h; omega
  | .cons k v t, .cons k' v' t', h => by
      have h2 := Nat.pair_eq_pair.mp (Nat.add_right_cancel h)
      have h3 := Nat.pair_eq_pair.mp h2.2
      rw [strCode_inj h2.1, jsonCode_inj v v' h3.1, jsonObjCode_inj t t' h3.2]
end

/-- Model of `JSON.stringify` on structured payloads: the canonical injective
serialization.  The concrete JSON syntax is abstracted away; every code path
under verification relies only on the serialization being deterministic and
injective on payload values. -/
def Json.stringify (j : Json) : String := natHexStr (jsonCode j)

theorem stringify_inj {a b : Json} (h : Json.stringify a = Json.stringify b) : a = b :=
  jsonCode_inj a b (natHexStr_inj h)

/-- Model of JavaScript `String.prototype.toLowerCase` (character-wise). -/
def toLowerJS (s : String) : String := String.mk (s.data.map Char.toLower)

/-! ## The elliptic-curve and cipher models -/

/-- A party key pair (source `KeyPair`): hex-encoded private scalar and
hex-encoded public point. -/
structure KeyPair where
  privateKey : String
  publicKey : String

/-- Model of the secp256k1 group used by the elliptic library: points and
scalars are naturals, the generator is 2, and applying a scalar to a point is
multiplication, so ECDH commutativity holds exactly as in the real group. -/
def pubPointOf (d : Nat) : Nat := 2 * d

/-- Model of `generateKeyPair`: the randomly drawn scalar is passed
explicitly. -/
def generateKeyPair (d : Nat) : KeyPair :=
  { privateKey := natHexStr d, publicKey := natHexStr (pubPointOf d) }

/-- Model of elliptic `ec.keyFromPrivate(priv, 'hex')`: parse the hex scalar,
failing on malformed key material. -/
def keyFromPrivate (priv : String) : Except String Nat :=
  match parseHexNat priv with
  | some d => .ok d
  | none => .error "invalid private key material"

/-- Model of elliptic `ec.keyFromPublic(pub, 'hex')`: parse the hex point,
failing on malformed key material. -/
def keyFromPublic (pub : String) : Except String Nat :=
  match parseHexNat pub with
  | some q => .ok q
  | none => .error "invalid public key material"

/-- Model of the ECDH `derive` operation: scalar times point. -/
def ecdhDerive (scalar point : Nat) : Nat := scalar * point

/-- Model of the SHA-256 digest used as the key-derivation function over the
ECDH shared secret. -/
def sha256Key (secret : Nat) : String := "sh" ++ natHexStr secret

/-- `hashPublicKey` from the source: the keccak-256 digest of the public key
material truncated to 40 hex characters — the recipient fingerprint.  (The
hex-to-bytes conversion before hashing is elided; it is injective on
well-formed keys.) -/
def hashPublicKey (publicKey : String) : String :=
  (keccak256 publicKey).take 40

/-- Model of an AES-256-GCM ciphertext: the cipher is idealized as an
authenticated-encryption scheme, so a ciphertext is determined by the key,
the iv and the plaintext it was produced from.  The plaintext slot is typed
so the envelope can carry the structured payload whose string serialization
the source encrypts. -/
structure GCMCiphertext (α : Type) where
  key : String
  iv : String
  plain : α

/-- Model of the 16-byte GCM authentication tag over (key, iv, plaintext). -/
def gcmTag (key iv plainRepr : String) : String :=
  "tag." ++ key ++ "." ++ iv ++ "." ++ plainRepr

/-- The (ciphertext, iv, authTag) triple returned by `encryptWithAES`. -/
structure AESEncryption (α : Type) where
  ciphertext : GCMCiphertext α
  iv : String
  authTag : String

/-- `encryptWithAES` from the source (AES-256-GCM).  `ser` is the
serialization of the plaintext (the source always encrypts the serialized
string); the iv, random in the source, is passed explicitly. -/
def encryptWithAES {α : Type} (ser : α → String) (data : α) (key iv : String) :
    AESEncryption α :=
  { ciphertext := { key := key, iv := iv, plain := data }
  , iv := iv
  , authTag := gcmTag key iv (ser data) }

/-- `decryptWithAES` from the source: GCM decryption fails closed whenever
the key, the iv or the authentication tag does not match. -/
def decryptWithAES {α : Type} (ser : α → String) (ct : GCMCiphertext α)
    (key iv authTag : String) : Except String α :=
  if ct.key = key ∧ ct.iv = iv ∧ authTag = gcmTag key iv (ser ct.plain)
    then .ok ct.plain
    else .error "Unsupported state or unable to authenticate data"

/-! ## The envelope operations -/

/-- The per-recipient wrapped-DEK bundle produced by `encryptDEKForParty`
({ephemeralPublicKey, encryptedDek, iv, authTag}); its JSON serialization is
modelled structurally. -/
structure WrappedDEK where
  ephemeralPublicKey : String
  encryptedDek : GCMCiphertext String
  iv : String
  authTag : String

/-- The source `EncryptedEnvelope`: payload ciphertext plus the
fingerprint-indexed record of wrapped DEKs. -/
structure EncryptedEnvelope where
  encryptedData : GCMCiphertext Json
  iv : String
  authTag : String
  encryptedKeys : List (String × WrappedDEK)

/-- The source `DecryptionResult`. -/
structure DecryptionResult where
  success : Bool
  data : Option Json
  error : Option String

/-- JS object property assignment on a string-keyed record (a later write to
the same key replaces the earlier value). -/
def recordSet {α : Type} (m : List (String × α)) (k : String) (v : α) :
    List (String × α) :=
  m.filter (fun kv => !(kv.1 == k)) ++ [(k, v)]

/-- JS object property lookup on a string-keyed record. -/
def recordGet {α : Type} (m : List (String × α)) (k : String) : Option α :=
  (m.find? (fun kv => kv.1 == k)).map (fun kv => kv.2)

/-- `encryptDEKForParty` from the source (ECIES-style wrap): ECDH between a
fresh ephemeral key and the party's public key, SHA-256 key derivation, then
AES-GCM over the DEK.  The ephemeral scalar and the wrap iv, random in the
source, are passed explicitly. -/
def encryptDEKForParty (dek : String) (partyPublicKey : String)
    (eph : Nat) (iv : String) : Except String WrappedDEK :=
  match keyFromPublic partyPublicKey with
  | .error e => .error e
  | .ok q =>
    let sharedSecret := ecdhDerive eph q
    let encryptionKey := sha256Key sharedSecret
    let e := encryptWithAES id dek encryptionKey iv
    .ok { ephemeralPublicKey := natHexStr (pubPointOf eph)
        , encryptedDek := e.ciphertext
        , iv := e.iv
        , authTag := e.authTag }

/-- `decryptDEKWithPrivateKey` from the source: recompute the ECDH shared
secret from the recipient's private key and the ephemeral public key, then
AES-GCM-decrypt the wrapped DEK. -/
def decryptDEKWithPrivateKey (w : WrappedDEK) (privateKey : String) :
    Except String String :=
  match keyFromPrivate privateKey with
  | .error e => .error e
  | .ok d =>
    match keyFromPublic w.ephemeralPublicKey with
    | .error e => .error e
    | .ok p =>
      let sharedSecret := ecdhDerive d p
      let decryptionKey := sha256Key sharedSecret
      decryptWithAES id w.encryptedDek decryptionKey w.iv w.authTag

/-- The wrapped-key loop of `createEncryptedEnvelope`: one
`encryptDEKForParty` per recipient, stored under the recipient fingerprint.
`wrapRand` supplies the (ephemeral scalar, iv) randomness of the i-th wrap. -/
def wrapKeys (dek : String) (wrapRand : Nat → Nat × String) :
    List String → Nat → List (String × WrappedDEK) →
    Except String (List (String × WrappedDEK))
  | [], _, acc => .ok acc
  | pubKey :: rest, i, acc => do
    let w ← encryptDEKForParty dek pubKey (wrapRand i).1 (wrapRand i).2
    wrapKeys dek wrapRand rest (i + 1) (recordSet acc (hashPublicKey pubKey) w)

/-- `createEncryptedEnvelope` from the source.  All randomness (the DEK, the
payload iv, and each wrap's ephemeral scalar and iv) is passed explicitly. -/
def createEncryptedEnvelope (data : Json) (partyPublicKeys : List String)
    (dek iv : String) (wrapRand : Nat → Nat × String) :
    Except String EncryptedEnvelope :=
  let e := encryptWithAES Json.stringify data dek iv
  match wrapKeys dek wrapRand partyPublicKeys 0 [] with
  | .error err => .error err
  | .ok ks =>
    .ok { encryptedData := e.ciphertext
        , iv := e.iv
        , authTag := e.authTag
        , encryptedKeys := ks }

/-- `decryptEnvelope` from the source: fingerprint lookup, DEK unwrap, then
payload decryption; every internal failure is caught and surfaced inside the
returned `DecryptionResult`. -/
def decryptEnvelope (envelope : EncryptedEnvelope)
    (privateKey publicKey : String) : DecryptionResult :=
  let keyHash := hashPublicKey publicKey
  match recordGet envelope.encryptedKeys keyHash with
  | none =>
    { success := false, data := none
    , error := some "Not authorized to decrypt this data" }
  | some encryptedDek =>
    match decryptDEKWithPrivateKey encryptedDek privateKey >>= fun dek =>
        decryptWithAES Json.stringify envelope.encryptedData dek
          envelope.iv envelope.authTag with
    | .ok jsonData => { success := true, data := some jsonData, error := none }
    | .error e => { success := false, data := none, error := some e }

/-! ## Commitments and signatures -/

/-- `generateCommitment` from the source; the nonce (random when the caller
omits it) is passed explicitly.  Returns (commitment, nonce). -/
def generateCommitment (data : Json) (nonce : String) : String × String :=
  let dataString := Json.stringify data ++ nonce
  ("0x" ++ keccak256 dataString, nonce)

/-- `verifyCommitment` from the source: recompute the commitment and compare
case-insensitively. -/
def verifyCommitment (data : Json) (nonce : String)
    (expectedCommitment : String) : Bool :=
  toLowerJS (generateCommitment data nonce).1 == toLowerJS expectedCommitment

/-- `signData` from the source: an ECDSA signature over the keccak hash of
the message, idealized as a deterministic unforgeable scheme — a signature
is the message hash tagged with the signing scalar. -/
def signData (data : String) (privateKey : String) : Except String String := do
  let d ← keyFromPrivate privateKey
  .ok (keccak256 data ++ "s" ++ natHexStr d)

/-- `verifySignature` from the source: recompute the hash and check the
signature against the supplied public key; returns false — it never throws —
on malformed key material. -/
def verifySignature (data : String) (signature : String)
    (publicKey : String) : Bool :=
  match keyFromPublic publicKey with
  | .error _ => false
  | .ok q =>
    decide (q % 2 = 0) && (signature == keccak256 data ++ "s" ++ natHexStr (q / 2))

/-! ## The disclosure tree -/

/-- The leaf digest of one field: keccak-256 of `name:serialized-value`. -/
def leafHash (key : String) (value : Json) : String :=
  keccak256 (key ++ ":" ++ Json.stringify value)

/-- Lexicographic character-list comparison (by code point). -/
def charsLe : List Char → List Char → Bool
  | [], _ => true
  | _ :: _, [] => false
  | a :: as, b :: bs =>
    if a.toNat < b.toNat then true
    else if b.toNat < a.toNat then false
    else charsLe as bs

/-- The lexicographic string order used by the JS default array sort. -/
def strLeR (a b : String) : Prop := charsLe a.data b.data = true

instance : DecidableRel strLeR := fun a b => by
  unfold strLeR
  infer_instance

/-- Model of `Array.prototype.sort()` on string arrays: sorting by the
default lexicographic comparison. -/
def jsSort (l : List String) : List String := l.insertionSort strLeR

/-- `buildMerkleTree` from the source: a leaf digest per field; the root is
the keccak hash of the sorted concatenation of the digests, '0x'-prefixed —
except for an empty field map, whose root is the bare hash of the empty
string.  The JS `Record` of fields is modelled as an association list in
enumeration order. -/
def buildMerkleTree (fields : List (String × Json)) :
    String × List (String × String) :=
  let leaves := fields.map (fun kv => (kv.1, leafHash kv.1 kv.2))
  let hashes := leaves.map (fun kv => kv.2)
  if hashes.length = 0 then (keccak256 "", leaves)
  else ("0x" ++ keccak256 (String.join (jsSort hashes)), leaves)

/-- `generateMerkleProof` from the source.  The first loop stores each
disclosed field that exists and pushes its leaf digest into the proof; the
second loop pushes the digests of the non-disclosed fields; the proof array
is sorted (its JSON serialization is modelled structurally). -/
def generateMerkleProof (allFields : List (String × Json))
    (disclosedFieldNames : List String) :
    List (String × Json) × List String :=
  let leaves := (buildMerkleTree allFields).2
  let disclosedFields := disclosedFieldNames.foldl (fun acc name =>
    match recordGet allFields name with
    | some v => recordSet acc name v
    | none => acc) []
  let proofDisclosed := disclosedFieldNames.filterMap (fun name =>
    match recordGet allFields name with
    | some _ => recordGet leaves name
    | none => none)
  let proofOthers := (leaves.filter
    (fun kv => !(disclosedFieldNames.contains kv.1))).map (fun kv => kv.2)
  (disclosedFields, jsSort (proofDisclosed ++ proofOthers))

/-! ## The disclosure-verification route -/

/-- The JSON body produced by the `POST /disclosures/verify` handler. -/
structure VerifyDisclosureResponse where
  valid : Bool
  disclosedFieldCount : Nat
  expectedRoot : String
  message : String

/-- The `POST /disclosures/verify` handler body (routes/disclosures.ts): it
rebuilds the tree from the disclosed data and combines the leaf digests with
the proof digests, but the validity flag it reports is the hard-coded
constant `true` ("Simplified for demo") — the combined hashes and the
expected root are never compared. -/
def verifyDisclosureRoute (disclosedData : List (String × Json))
    (merkleProof : List String) (originalMerkleRoot : String) :
    VerifyDisclosureResponse :=
  let rebuilt := buildMerkleTree disclosedData
  let leafValues := rebuilt.2.map (fun kv => kv.2)
  let allHashes := jsSort (leafValues ++ merkleProof.filter
    (fun h => !(leafValues.contains h)))
  let isValid := true
  { valid := isValid
  , disclosedFieldCount := disclosedData.length
  , expectedRoot := originalMerkleRoot
  , message :=
      if isValid then "Disclosed data is authentic and part of original transaction"
      else "Verification failed - data may be tampered" }

/-! ## Order facts for the sort model -/

theorem charsLe_total : ∀ l1 l2 : List Char,
    charsLe l1 l2 = true ∨ charsLe l2 l1 = true := by
  intro l1
  induction l1 with
  | nil => intro l2; left; rfl
  | cons a as ih =>
    intro l2
    cases l2 with
    | nil => right; rfl
    | cons b bs =>
      rcases Nat.lt_trichotomy a.toNat b.toNat with h | h | h
      · left; simp only [charsLe]; rw [if_pos h]
      · rcases ih bs with ht | ht
        · left; simp only [charsLe]
          rw [if_neg (by omega), if_neg (by omega)]
          exact ht
        · right; simp only [charsLe]
          rw [if_neg (by omega), if_neg (by omega)]
          exact ht
      · right; simp only [charsLe]; rw [if_pos h]

theorem charsLe_trans : ∀ l1 l2 l3 : List Char, charsLe l1 l2 = true →
    charsLe l2 l3 = true → charsLe l1 l3 = true := by
  intro l1
  induction l1 with
  | nil => intro l2 l3 _ _; rfl
  | cons a as ih =>
    intro l2 l3 h12 h23
    cases l2 with
    | nil => simp only [charsLe] at h12; exact Bool.noConfusion h12
    | cons b bs =>
      cases l3 with
      | nil => simp only [charsLe] at h23; exact Bool.noConfusion h23
      | cons c cs =>
        simp only [charsLe] at h12 h23 ⊢
        rcases Nat.lt_trichotomy a.toNat b.toNat with hab | hab | hab
        · rcases Nat.lt_trichotomy b.toNat c.toNat with hbc | hbc | hbc
          · rw [if_pos (by omega)]
          · rw [if_pos (by omega)]
          · rw [if_neg (by omega), if_pos hbc] at h23
            exact Bool.noConfusion h23
        · rw [if_neg (by omega), if_neg (by omega)] at h12
          rcases Nat.lt_trichotomy b.toNat c.toNat with hbc | hbc | hbc
          · rw [if_pos (by omega)]
          · rw [if_neg (by omega), if_neg (by omega)] at h23
            rw [if_neg (by omega), if_neg (by omega)]
            exact ih bs cs h12 h23
          · rw [if_neg (by omega), if_pos hbc] at h23
            exact Bool.noConfusion h23
        · rw [if_neg (by omega), if_pos hab] at h12
          exact Bool.noConfusion h12

theorem charsLe_antisymm : ∀ l1 l2 : List Char, charsLe l1 l2 = true →
    charsLe l2 l1 = true → l1 = l2 := by
  intro l1
  induction l1 with
  | nil =>
    intro l2 _ h21
    cases l2 with
    | nil => rfl
    | cons b bs => simp only [charsLe] at h21; exact Bool.noConfusion h21
  | cons a as ih =>
    intro l2 h12 h21
    cases l2 with
    | nil => simp only [charsLe] at h12; exact Bool.noConfusion h12
    | cons b bs =>
      simp only [charsLe] at h12 h21
      rcases Nat.lt_trichotomy a.toNat b.toNat with hab | hab | hab
      · rw [if_neg (by omega), if_pos hab] at h21
        exact Bool.noConfusion h21
      · rw [if_neg (by omega), if_neg (by omega)] at h12
        rw [if_neg (by omega), if_neg (by omega)] at h21
        have hc : a = b := by
          have h2 := congrArg Char.ofNat hab
          rwa [Char.ofNat_toNat, Char.ofNat_toNat] at h2
        rw [hc, ih bs h12 h21]
      · rw [if_neg (by omega), if_pos hab] at h12
        exact Bool.noConfusion h12

instance : IsTotal String strLeR :=
  ⟨fun a b => charsLe_total a.data b.data⟩

instance : IsTrans String strLeR :=
  ⟨fun a b c => charsLe_trans a.data b.data c.data⟩

instance : IsAntisymm String strLeR :=
  ⟨fun a b h1 h2 => String.ext (charsLe_antisymm a.data b.data h1 h2)⟩

theorem jsSort_perm (l : List String) : (jsSort l).Perm l :=
  List.perm_insertionSort strLeR l

theorem jsSort_eq_of_perm {l1 l2 : List String} (h : l1.Perm l2) :
    jsSort l1 = jsSort l2 :=
  List.eq_of_perm_of_sorted ((jsSort_perm l1).trans (h.trans (jsSort_perm l2).symm))
    (List.sorted_insertionSort strLeR l1) (List.sorted_insertionSort strLeR l2)

theorem mem_jsSort {a : String} {l : List String} : a ∈ jsSort l ↔ a ∈ l :=
  (jsSort_perm l).mem_iff

/-! ## Record lemmas -/

theorem find?_filter_keep {α : Type} (p q : α → Bool)
    (himp : ∀ x, p x = true → q x = true) :
    ∀ l : List α, (l.filter q).find? p = l.find? p := by
  intro l
  induction l with
  | nil => rfl
  | cons x xs ih =>
    cases hp : p x
    · cases hq : q x
      · rw [List.filter_cons, if_neg (by rw [hq]; exact Bool.noConfusion),
          List.find?_cons_of_neg _ (by rw [hp]; exact Bool.noConfusion), ih]
      · rw [List.filter_cons, if_pos hq,
          List.find?_cons_of_neg _ (by rw [hp]; exact Bool.noConfusion),
          List.find?_cons_of_neg _ (by rw [hp]; exact Bool.noConfusion), ih]
    · have hq := himp x hp
      rw [List.filter_cons, if_pos hq, List.find?_cons_of_pos _ hp,
        List.find?_cons_of_pos _ hp]

theorem recordGet_recordSet_self {α : Type} (m : List (String × α)) (k : String)
    (v : α) : recordGet (recordSet m k v) k = some v := by
  unfold recordGet recordSet
  rw [List.find?_append]
  have h1 : (m.filter (fun kv => !(kv.1 == k))).find? (fun kv => kv.1 == k) = none := by
    rw [List.find?_eq_none]
    intro x hx
    have hq := (List.mem_filter.mp hx).2
    simp only [Bool.not_eq_true'] at hq
    simp [hq]
  rw [h1]
  simp [List.find?]

theorem recordGet_recordSet_other {α : Type} (m : List (String × α))
    (k k' : String) (v : α) (h : k' ≠ k) :
    recordGet (recordSet m k v) k' = recordGet m k' := by
  unfold recordGet recordSet
  rw [List.find?_append]
  have h2 : List.find? (fun kv => kv.1 == k') [(k, v)] = none := by
    rw [List.find?_eq_none]
    intro x hx
    rw [List.mem_singleton.mp hx]
    simp
    exact fun he => h he.symm
  rw [h2, find?_filter_keep _ _ ?_, Option.or_none]
  intro x hx
  have hx2 : x.1 = k' := by simpa using hx
  simp only [Bool.not_eq_true']
  rw [beq_eq_false_iff_ne, hx2]
  exact h

theorem recordGet_of_mem_nodup {α : Type} (m : List (String × α)) (k : String)
    (v : α) (hnd : (m.map Prod.fst).Nodup) (hmem : (k, v) ∈ m) :
    recordGet m k = some v := by
  induction m with
  | nil => exact absurd hmem (List.not_mem_nil _)
  | cons kv rest ih =>
    simp only [List.map_cons, List.nodup_cons] at hnd
    rcases List.mem_cons.mp hmem with h1 | h2
    · unfold recordGet
      rw [← h1, List.find?_cons_of_pos _ (by simp)]
      rfl
    · have hne : (kv.1 == k) = false := by
        rw [beq_eq_false_iff_ne]
        intro he
        exact hnd.1 (he ▸ List.mem_map.mpr ⟨(k, v), h2, rfl⟩)
      unfold recordGet
      rw [List.find?_cons_of_neg _ (by rw [hne]; exact Bool.noConfusion)]
      exact ih hnd.2 h2

theorem mem_of_recordGet {α : Type} {m : List (String × α)} {k : String}
    {v : α} (h : recordGet m k = some v) : (k, v) ∈ m := by
  unfold recordGet at h
  rcases ho : m.find? (fun kv => kv.1 == k) with _ | kv
  · rw [ho] at h; exact Option.noConfusion h
  · rw [ho] at h
    have hm := List.mem_of_find?_eq_some ho
    have hp := List.find?_some ho
    have hk : kv.1 = k := by simpa using hp
    have hv : kv.2 = v := by simpa using h
    have hkv : kv = (k, v) := by
      cases kv
      simp only at hk hv
      rw [hk, hv]
    rwa [hkv] at hm

/-! ## Wrapped-key loop lemmas -/

theorem wrapKeys_frozen (dek : String) (wrapRand : Nat → Nat × String) :
    ∀ (keys : List String) (i : Nat) (acc m : List (String × WrappedDEK))
      (k : String), wrapKeys dek wrapRand keys i acc = .ok m →
      k ∉ keys.map hashPublicKey → recordGet m k = recordGet acc k := by
  intro keys
  induction keys with
  | nil =>
    intro i acc m k h _
    simp only [wrapKeys] at h
    rw [Except.ok.inj h]
  | cons pk rest ih =>
    intro i acc m k h hk
    simp only [List.map_cons, List.mem_cons, not_or] at hk
    simp only [wrapKeys] at h
    rcases hw : encryptDEKForParty dek pk (wrapRand i).1 (wrapRand i).2 with e | w
    · rw [hw] at h; exact Except.noConfusion h
    · rw [hw] at h
      have h3 : wrapKeys dek wrapRand rest (i + 1)
          (recordSet acc (hashPublicKey pk) w) = .ok m := by simpa using h
      rw [ih (i + 1) _ m k h3 hk.2]
      exact recordGet_recordSet_other _ _ _ _ hk.1

theorem wrapKeys_mem (dek : String) (wrapRand : Nat → Nat × String) :
    ∀ (keys : List String) (i : Nat) (acc m : List (String × WrappedDEK))
      (pk : String), wrapKeys dek wrapRand keys i acc = .ok m →
      pk ∈ keys → (keys.map hashPublicKey).Nodup →
      ∃ j w, encryptDEKForParty dek pk (wrapRand j).1 (wrapRand j).2 = .ok w ∧
        recordGet m (hashPublicKey pk) = some w := by
  intro keys
  induction keys with
  | nil => intro _ _ _ _ _ hmem; exact absurd hmem (List.not_mem_nil _)
  | cons hd rest ih =>
    intro i acc m pk h hmem hnd
    simp only [wrapKeys] at h
    simp only [List.map_cons, List.nodup_cons] at hnd
    rcases hw : encryptDEKForParty dek hd (wrapRand i).1 (wrapRand i).2 with e | w
    · rw [hw] at h; exact Except.noConfusion h
    · rw [hw] at h
      have h3 : wrapKeys dek wrapRand rest (i + 1)
          (recordSet acc (hashPublicKey hd) w) = .ok m := by simpa using h
      rcases List.mem_cons.mp hmem with h1 | h2
      · subst h1
        refine ⟨i, w, hw, ?_⟩
        rw [wrapKeys_frozen dek wrapRand rest (i + 1) _ m (hashPublicKey pk) h3 hnd.1]
        exact recordGet_recordSet_self _ _ _
      · exact ih (i + 1) _ m pk h3 h2 hnd.2

/-! ## Key-parsing round trips and digest facts -/

theorem keyFromPrivate_natHexStr (d : Nat) : keyFromPrivate (natHexStr d) = .ok d := by
  unfold keyFromPrivate
  rw [parseHexNat_natHexStr]

theorem keyFromPublic_natHexStr (q : Nat) : keyFromPublic (natHexStr q) = .ok q := by
  unfold keyFromPublic
  rw [parseHexNat_natHexStr]

theorem toLowerJS_commitment (s : String) :
    toLowerJS ("0x" ++ keccak256 s) = "0x" ++ keccak256 s := by
  unfold toLowerJS
  apply String.ext
  show List.map Char.toLower ("0x" ++ keccak256 s).data = ("0x" ++ keccak256 s).data
  rw [String.data_append]
  show List.map Char.toLower ('0' :: 'x' :: (keccak256 s).data) =
    '0' :: 'x' :: (keccak256 s).data
  simp only [List.map_cons]
  rw [show Char.toLower '0' = '0' from by decide,
    show Char.toLower 'x' = 'x' from by decide,
    List.map_congr_left (fun c hc => (keccak256_chars c hc).1)]
  simp

/-- Both branches of `buildMerkleTree` return the same leaf record. -/
theorem buildMerkleTree_leaves (fields : List (String × Json)) :
    (buildMerkleTree fields).2 = fields.map (fun kv => (kv.1, leafHash kv.1 kv.2)) := by
  cases fields <;> rfl

/-- The root of an empty field map. -/
theorem buildMerkleTree_nil : buildMerkleTree [] = (keccak256 "", []) := rfl


/-- `decryptEnvelope` when the fingerprint has no wrapped-key entry. -/
theorem decryptEnvelope_eq_none (env : EncryptedEnvelope) (priv pub : String)
    (hg : recordGet env.encryptedKeys (hashPublicKey pub) = none) :
    decryptEnvelope env priv pub =
      { success := false, data := none
      , error := some "Not authorized to decrypt this data" } := by
  simp only [decryptEnvelope]
  rw [hg]

/-- `decryptEnvelope` when the fingerprint has a wrapped-key entry. -/
theorem decryptEnvelope_eq_some (env : EncryptedEnvelope) (priv pub : String)
    (w : WrappedDEK)
    (hg : recordGet env.encryptedKeys (hashPublicKey pub) = some w) :
    decryptEnvelope env priv pub =
      match decryptDEKWithPrivateKey w priv >>= fun dek =>
          decryptWithAES Json.stringify env.encryptedData dek
            env.iv env.authTag with
      | .ok jsonData => { success := true, data := some jsonData, error := none }
      | .error e => { success := false, data := none, error := some e } := by
  simp only [decryptEnvelope]
  rw [hg]

/-- The root of a non-empty field map. -/
theorem buildMerkleTree_ne_nil {fields : List (String × Json)} (h : fields ≠ []) :
    buildMerkleTree fields =
      ("0x" ++ keccak256 (String.join (jsSort
          ((fields.map (fun kv => (kv.1, leafHash kv.1 kv.2))).map (fun kv => kv.2)))),
        fields.map (fun kv => (kv.1, leafHash kv.1 kv.2))) := by
  cases fields with
  | nil => exact absurd rfl h
  | cons kv rest => rfl

/-! ## Claim theorems -/

/-- C2 (counterexample): the claim says envelope creation with an empty
recipient set fails with a `NoRecipients` error; in fact
`createEncryptedEnvelope` with an empty recipient list succeeds and returns a
completed envelope whose wrapped-key record is empty, as this concrete
evaluation shows. -/
theorem createEnvelope_empty_recipients_cex :
    createEncryptedEnvelope (Json.num 1) [] "dk" "iv" (fun _ => (0, "")) =
      .ok { encryptedData := { key := "dk", iv := "iv", plain := Json.num 1 }
          , iv := "iv"
          , authTag := gcmTag "dk" "iv" (Json.stringify (Json.num 1))
          , encryptedKeys := [] } := rfl

/-- C2 (amended): for every payload and every choice of randomness,
`createEncryptedEnvelope` with an empty recipient set does not fail: it
returns a completed envelope whose wrapped-key record is empty (no
`NoRecipients` error exists in the code). -/
theorem createEnvelope_empty_recipients (data : Json) (dek iv : String)
    (wrapRand : Nat → Nat × String) :
    createEncryptedEnvelope data [] dek iv wrapRand =
      .ok { encryptedData := { key := dek, iv := iv, plain := data }
          , iv := iv
          , authTag := gcmTag dek iv (Json.stringify data)
          , encryptedKeys := [] } := rfl

/-- C3 (code bug): the claim — and the specification — require the
disclosure-verification operation to return false whenever the root
reconstructed from the disclosed values and the proof digests does not equal
the expected root; but the `POST /disclosures/verify` handler reports
`valid: true` for every input whatsoever (`isValid` is the hard-coded
constant `true`), so no tampering is ever detected. -/
theorem verifyDisclosureRoute_always_valid
    (disclosedData : List (String × Json)) (merkleProof : List String)
    (originalMerkleRoot : String) :
    (verifyDisclosureRoute disclosedData merkleProof originalMerkleRoot).valid
      = true := rfl

/-- C9: `decryptEnvelope` is total: on every envelope and every key material
it returns a `DecryptionResult` — successful with a payload and no error, or
failed with `success := false`, an error message present and no payload.  All
internal failures (missing wrapped-key entry, malformed key material,
authentication-tag mismatch at either stage) land in the second case. -/
theorem decryptEnvelope_total (env : EncryptedEnvelope) (priv pub : String) :
    ((decryptEnvelope env priv pub).success = true ∧
      (decryptEnvelope env priv pub).error = none ∧
      (decryptEnvelope env priv pub).data.isSome = true) ∨
    ((decryptEnvelope env priv pub).success = false ∧
      (decryptEnvelope env priv pub).error.isSome = true ∧
      (decryptEnvelope env priv pub).data = none) := by
  rcases hg : recordGet env.encryptedKeys (hashPublicKey pub) with _ | w
  · rw [decryptEnvelope_eq_none env priv pub hg]
    exact Or.inr ⟨rfl, rfl, rfl⟩
  · rw [decryptEnvelope_eq_some env priv pub w hg]
    rcases (decryptDEKWithPrivateKey w priv >>= fun dek =>
        decryptWithAES Json.stringify env.encryptedData dek
          env.iv env.authTag : Except String Json) with e | j
    · exact Or.inr ⟨rfl, rfl, rfl⟩
    · exact Or.inl ⟨rfl, rfl, rfl⟩

/-- C10: the root returned by `buildMerkleTree` carries a '0x' prefix exactly
when the field map is non-empty; for an empty field map it is the bare
(unprefixed) hash of the empty string, so an empty-tree root and a
non-empty-tree root can never compare equal. -/
theorem buildMerkleTree_root_encoding (fields fields2 : List (String × Json))
    (h1 : fields = []) (h2 : fields2 ≠ []) :
    (buildMerkleTree fields).1 = keccak256 "" ∧
    ¬ ("0x".data <+: (buildMerkleTree fields).1.data) ∧
    ("0x".data <+: (buildMerkleTree fields2).1.data) ∧
    (buildMerkleTree fields).1 ≠ (buildMerkleTree fields2).1 := by
  subst h1
  rw [buildMerkleTree_ne_nil h2]
  refine ⟨rfl, ?_, ?_, ?_⟩
  · rintro ⟨t, ht⟩
    exact List.noConfusion ht
  · exact ⟨_, rfl⟩
  · intro he
    have hlen := congrArg (fun s : String => s.data.length) he
    simp only [buildMerkleTree_nil] at hlen
    rw [String.data_append] at hlen
    simp only [List.length_append] at hlen
    have : (keccak256 "").data.length = 0 := rfl
    rw [this] at hlen
    simp only [List.length_cons, List.length_nil] at hlen
    omega

/-- C6: commitment verification accepts the commitment generated from the
same payload and nonce, and rejects it for any distinct payload with the
same nonce (the digest is idealized as collision-free, and the canonical
serialization is injective on payload values). -/
theorem commitment_verify (P Pbad : Json) (n : String) (hne : P ≠ Pbad) :
    verifyCommitment P n (generateCommitment P n).1 = true ∧
    verifyCommitment Pbad n (generateCommitment P n).1 = false := by
  constructor
  · unfold verifyCommitment
    exact beq_self_eq_true _
  · unfold verifyCommitment
    rw [beq_eq_false_iff_ne]
    intro heq
    apply hne
    unfold generateCommitment at heq
    simp only at heq
    rw [toLowerJS_commitment, toLowerJS_commitment] at heq
    have h2 : keccak256 (Json.stringify Pbad ++ n) =
        keccak256 (Json.stringify P ++ n) := by
      have hd := congrArg String.data heq
      rw [String.data_append, String.data_append] at hd
      exact String.ext (List.append_cancel_left hd)
    have h3 := keccak256_inj h2
    have hd := congrArg String.data h3
    rw [String.data_append, String.data_append] at hd
    exact (stringify_inj (String.ext (List.append_cancel_right hd))).symm

/-- C6 (witness): the commitment round trip at the concrete payloads 0 and 1
with nonce "n". -/
theorem commitment_verify_witness :
    verifyCommitment (Json.num 0) "n" (generateCommitment (Json.num 0) "n").1 = true ∧
    verifyCommitment (Json.num 1) "n" (generateCommitment (Json.num 0) "n").1 = false :=
  commitment_verify (Json.num 0) (Json.num 1) "n" (by simp)

/-- C8: signature verification accepts a signature under the matching key
pair and rejects it under any public key that does not correspond to the
signing scalar (or is malformed); the ECDSA scheme is idealized as
deterministic and unforgeable. -/
theorem signature_roundtrip (msg : String) (d : Nat) (pub2 : String)
    (hnot : ∀ q2, keyFromPublic pub2 = .ok q2 → q2 ≠ pubPointOf d)
    (sig : String)
    (hsig : signData msg (generateKeyPair d).privateKey = .ok sig) :
    verifySignature msg sig (generateKeyPair d).publicKey = true ∧
    verifySignature msg sig pub2 = false := by
  simp only [generateKeyPair] at hsig ⊢
  simp only [signData, keyFromPrivate_natHexStr] at hsig
  have hs : sig = keccak256 msg ++ "s" ++ natHexStr d := (Except.ok.inj hsig).symm
  subst hs
  constructor
  · simp only [verifySignature, keyFromPublic_natHexStr]
    have h2 : pubPointOf d % 2 = 0 := Nat.mul_mod_right 2 d
    have h3 : pubPointOf d / 2 = d := by unfold pubPointOf; omega
    rw [h2, h3]
    simp
  · rcases hq : keyFromPublic pub2 with e | q2
    · simp [verifySignature, hq]
    · simp only [verifySignature, hq]
      rw [Bool.and_eq_false_iff]
      by_cases he : q2 % 2 = 0
      · right
        rw [beq_eq_false_iff_ne]
        intro heq
        have hd := congrArg String.data heq
        rw [String.data_append, String.data_append, String.data_append,
          String.data_append, List.append_assoc, List.append_assoc] at hd
        have h4 := List.append_cancel_left hd
        have h5 := List.append_cancel_left h4
        have h6 := natHexStr_inj (String.ext h5)
        exact hnot q2 hq (by unfold pubPointOf; omega)
      · left
        simp [he]

/-- C8 (witness): the signature round trip at the message "m", the key pair
of scalar 3, and the unrelated public key of point 5. -/
theorem signature_roundtrip_witness :
    verifySignature "m" (keccak256 "m" ++ "s" ++ natHexStr 3)
      (generateKeyPair 3).publicKey = true ∧
    verifySignature "m" (keccak256 "m" ++ "s" ++ natHexStr 3) (natHexStr 5) = false :=
  signature_roundtrip "m" 3 (natHexStr 5)
    (by
      intro q2 hq
      rw [keyFromPublic_natHexStr] at hq
      injection hq with hv
      rw [← hv]
      decide)
    (keccak256 "m" ++ "s" ++ natHexStr 3) rfl

/-- C7 (counterexample): at the concrete one-field map {"a": null} the root
returned by `buildMerkleTree` is not the bare hash of the sorted
concatenation of the leaf digests — the root carries a '0x' prefix. -/
theorem merkle_root_prefix_cex :
    (buildMerkleTree [("a", Json.null)]).1 ≠
      keccak256 (String.join (jsSort
        ([("a", Json.null)].map (fun kv => leafHash kv.1 kv.2)))) := by decide

/-- C7 (amended): `buildMerkleTree` returns the same root on any two
enumeration orders of the same field/value pairs, and for a non-empty field
map the root equals '0x' followed by the hash of the sorted concatenation of
all leaf digests. -/
theorem merkle_root (f1 f2 : List (String × Json)) (hp : f1.Perm f2) :
    (buildMerkleTree f1).1 = (buildMerkleTree f2).1 ∧
    (f1 ≠ [] → (buildMerkleTree f1).1 =
      "0x" ++ keccak256 (String.join (jsSort
        (f1.map (fun kv => leafHash kv.1 kv.2))))) := by
  have hcomp : ∀ f : List (String × Json),
      (f.map (fun kv => (kv.1, leafHash kv.1 kv.2))).map (fun kv => kv.2) =
      f.map (fun kv => leafHash kv.1 kv.2) := by
    intro f
    rw [List.map_map]
    rfl
  constructor
  · by_cases h1 : f1 = []
    · subst h1
      rw [List.Perm.eq_nil hp.symm]
    · have h2 : f2 ≠ [] := fun hh => h1 (List.Perm.eq_nil (hh ▸ hp))
      have hsort : jsSort ((f1.map (fun kv => (kv.1, leafHash kv.1 kv.2))).map
            (fun kv => kv.2)) =
          jsSort ((f2.map (fun kv => (kv.1, leafHash kv.1 kv.2))).map
            (fun kv => kv.2)) := by
        rw [hcomp, hcomp]
        exact jsSort_eq_of_perm (hp.map _)
      rw [buildMerkleTree_ne_nil h1, buildMerkleTree_ne_nil h2, hsort]
  · intro h1
    rw [buildMerkleTree_ne_nil h1, hcomp f1]

/-- C7 (witness): the amended root law at the concrete two-field map
{"a": 1, "b": 2} and its reversed enumeration. -/
theorem merkle_root_witness :
    (buildMerkleTree [("a", Json.num 1), ("b", Json.num 2)]).1 =
      (buildMerkleTree [("b", Json.num 2), ("a", Json.num 1)]).1 ∧
    (buildMerkleTree [("a", Json.num 1), ("b", Json.num 2)]).1 =
      "0x" ++ keccak256 (String.join (jsSort
        ([("a", Json.num 1), ("b", Json.num 2)].map
          (fun kv => leafHash kv.1 kv.2)))) :=
  ⟨(merkle_root [("a", Json.num 1), ("b", Json.num 2)]
      [("b", Json.num 2), ("a", Json.num 1)] (List.Perm.swap _ _ _)).1,
   (merkle_root [("a", Json.num 1), ("b", Json.num 2)]
      [("b", Json.num 2), ("a", Json.num 1)] (List.Perm.swap _ _ _)).2
      (by simp)⟩

/-- C5 (counterexample): disclosing field "a" of the map {"a": 1, "b": 2}
produces a proof that contains the leaf digest of the disclosed field "a"
itself (which is distinct from the digest of the non-disclosed field "b"),
contradicting the claim that the proof consists only of non-disclosed leaf
digests. -/
theorem merkleProof_disclosed_cex :
    leafHash "a" (Json.num 1) ∈
      (generateMerkleProof [("a", Json.num 1), ("b", Json.num 2)] ["a"]).2 ∧
    leafHash "a" (Json.num 1) ≠ leafHash "b" (Json.num 2) := by decide

/-- C5 (amended): for a field map with unique field names, the proof
returned by `generateMerkleProof` consists of the leaf digests of all
fields: it contains the digest of every field — each disclosed field present
in the map as well as each non-disclosed field — and nothing else. -/
theorem merkleProof_contents (allFields : List (String × Json)) (S : List String)
    (hnd : (allFields.map Prod.fst).Nodup) :
    (∀ kv ∈ allFields, leafHash kv.1 kv.2 ∈ (generateMerkleProof allFields S).2) ∧
    (∀ h ∈ (generateMerkleProof allFields S).2,
      ∃ kv ∈ allFields, h = leafHash kv.1 kv.2) := by
  have hleaves := buildMerkleTree_leaves allFields
  have hndl : ((allFields.map (fun kv => (kv.1, leafHash kv.1 kv.2))).map
      Prod.fst).Nodup := by
    have hml : (allFields.map (fun kv => (kv.1, leafHash kv.1 kv.2))).map
        Prod.fst = allFields.map Prod.fst := by
      rw [List.map_map]
      rfl
    rw [hml]
    exact hnd
  constructor
  · rintro ⟨k, v⟩ hkv
    simp only [generateMerkleProof]
    rw [hleaves, mem_jsSort, List.mem_append]
    by_cases hS : k ∈ S
    · left
      rw [List.mem_filterMap]
      refine ⟨k, hS, ?_⟩
      rw [recordGet_of_mem_nodup allFields k v hnd hkv]
      exact recordGet_of_mem_nodup _ k (leafHash k v) hndl
        (List.mem_map.mpr ⟨(k, v), hkv, rfl⟩)
    · right
      rw [List.mem_map]
      refine ⟨(k, leafHash k v), ?_, rfl⟩
      rw [List.mem_filter]
      refine ⟨List.mem_map.mpr ⟨(k, v), hkv, rfl⟩, ?_⟩
      simpa using hS
  · intro h hmem
    simp only [generateMerkleProof] at hmem
    rw [hleaves, mem_jsSort, List.mem_append] at hmem
    rcases hmem with hd | ho
    · rw [List.mem_filterMap] at hd
      obtain ⟨name, _, heq⟩ := hd
      rcases hrg : recordGet allFields name with _ | v0
      · rw [hrg] at heq
        exact Option.noConfusion heq
      · rw [hrg] at heq
        have hmem2 := mem_of_recordGet heq
        rw [List.mem_map] at hmem2
        obtain ⟨kv, hkv, hpair⟩ := hmem2
        refine ⟨kv, hkv, ?_⟩
        have hsnd := congrArg Prod.snd hpair
        simpa using hsnd.symm
    · rw [List.mem_map] at ho
      obtain ⟨kv2, hkv2, hsnd⟩ := ho
      have hmem3 := (List.mem_filter.mp hkv2).1
      rw [List.mem_map] at hmem3
      obtain ⟨kv, hkv, hpair⟩ := hmem3
      refine ⟨kv, hkv, ?_⟩
      rw [← hsnd, ← hpair]

/-- C5 (witness): the amended proof-contents law at the concrete map
{"a": 1} with field "a" disclosed: the proof contains the digest of "a". -/
theorem merkleProof_contents_witness :
    leafHash "a" (Json.num 1) ∈
      (generateMerkleProof [("a", Json.num 1)] ["a"]).2 :=
  (merkleProof_contents [("a", Json.num 1)] ["a"] (by decide)).1
    ("a", Json.num 1) (List.Mem.head _)

/-- The wrapped-DEK bundle produced for a party with public point `q` by the
i-th wrap, used to state the round-trip argument. -/
def wrappedFor (dek : String) (eph : Nat) (wiv : String) (q : Nat) : WrappedDEK :=
  { ephemeralPublicKey := natHexStr (pubPointOf eph)
  , encryptedDek := { key := sha256Key (ecdhDerive eph q), iv := wiv, plain := dek }
  , iv := wiv
  , authTag := gcmTag (sha256Key (ecdhDerive eph q)) wiv dek }

/-- C4: exclusivity — a key pair whose public-key fingerprint has no
wrapped-key entry in the envelope (the guaranteed situation, under the
spec's fingerprint collision-freedom, for a public key outside the recipient
set) gets `success := false` with the `NotAuthorized` error message and no
plaintext from `decryptEnvelope`. -/
theorem envelope_exclusivity (data : Json) (partyKeys : List String)
    (dek iv : String) (wrapRand : Nat → Nat × String)
    (env : EncryptedEnvelope) (x : Nat)
    (hnotin : hashPublicKey (generateKeyPair x).publicKey ∉
      partyKeys.map hashPublicKey)
    (henv : createEncryptedEnvelope data partyKeys dek iv wrapRand = .ok env) :
    decryptEnvelope env (generateKeyPair x).privateKey
      (generateKeyPair x).publicKey =
      { success := false, data := none
      , error := some "Not authorized to decrypt this data" } := by
  simp only [createEncryptedEnvelope] at henv
  rcases hw : wrapKeys dek wrapRand partyKeys 0 [] with e | ks
  · rw [hw] at henv
    exact Except.noConfusion henv
  · rw [hw] at henv
    injection henv with henv2
    have hKeys : env.encryptedKeys = ks := by rw [← henv2]
    apply decryptEnvelope_eq_none
    rw [hKeys, wrapKeys_frozen dek wrapRand partyKeys 0 [] ks
      (hashPublicKey (generateKeyPair x).publicKey) hw hnotin]
    rfl

/-- The concrete envelope used by the C1 and C4 witnesses: the payload 7
encrypted to the two recipients whose key pairs have scalars 3 and 5. -/
def witnessEnvelope : EncryptedEnvelope :=
  match createEncryptedEnvelope (Json.num 7)
      [(generateKeyPair 3).publicKey, (generateKeyPair 5).publicKey]
      "dk" "iv" (fun _ => (1, "wi")) with
  | .ok e => e
  | .error _ =>
    { encryptedData := { key := "", iv := "", plain := Json.null }
    , iv := "", authTag := "", encryptedKeys := [] }

/-- C4 (witness): the outsider key pair of scalar 4 is refused on the
concrete two-recipient envelope. -/
theorem envelope_exclusivity_witness :
    decryptEnvelope witnessEnvelope (generateKeyPair 4).privateKey
      (generateKeyPair 4).publicKey =
      { success := false, data := none
      , error := some "Not authorized to decrypt this data" } :=
  envelope_exclusivity (Json.num 7)
    [(generateKeyPair 3).publicKey, (generateKeyPair 5).publicKey]
    "dk" "iv" (fun _ => (1, "wi")) witnessEnvelope 4 (by decide) rfl

/-- C1: envelope round trip — for every payload, every recipient list with
pairwise-distinct fingerprints (the spec's §4.1 collision-freedom
assumption), every choice of randomness, and every key pair whose public key
is among the recipients, decrypting the created envelope with that key pair
succeeds and returns the original payload. -/
theorem envelope_roundtrip (data : Json) (partyKeys : List String)
    (dek iv : String) (wrapRand : Nat → Nat × String) (d : Nat)
    (env : EncryptedEnvelope)
    (hne : partyKeys ≠ [])
    (hfp : (partyKeys.map hashPublicKey).Nodup)
    (hmem : (generateKeyPair d).publicKey ∈ partyKeys)
    (henv : createEncryptedEnvelope data partyKeys dek iv wrapRand = .ok env) :
    decryptEnvelope env (generateKeyPair d).privateKey
      (generateKeyPair d).publicKey =
      { success := true, data := some data, error := none } := by
  simp only [createEncryptedEnvelope] at henv
  rcases hw : wrapKeys dek wrapRand partyKeys 0 [] with e | ks
  · rw [hw] at henv
    exact Except.noConfusion henv
  · rw [hw] at henv
    injection henv with henv2
    have hEnc : env.encryptedData = { key := dek, iv := iv, plain := data } := by
      rw [← henv2] <;> rfl
    have hIv : env.iv = iv := by rw [← henv2] <;> rfl
    have hTag : env.authTag = gcmTag dek iv (Json.stringify data) := by
      rw [← henv2] <;> rfl
    have hKeys : env.encryptedKeys = ks := by rw [← henv2] <;> rfl

    obtain ⟨j, w, hwrap, hget⟩ := wrapKeys_mem dek wrapRand partyKeys 0 [] ks
      (generateKeyPair d).publicKey hw hmem hfp
    simp only [generateKeyPair] at hwrap
    simp only [encryptDEKForParty, keyFromPublic_natHexStr] at hwrap
    have hw2 : w = wrappedFor dek (wrapRand j).1 (wrapRand j).2 (pubPointOf d) :=
      (Except.ok.inj hwrap).symm
    subst hw2
    rw [← hKeys] at hget
    rw [decryptEnvelope_eq_some env _ _ _ hget]
    have hsec : ecdhDerive d (pubPointOf (wrapRand j).1) =
        ecdhDerive (wrapRand j).1 (pubPointOf d) := by
      unfold ecdhDerive pubPointOf
      ring
    have hdek : decryptDEKWithPrivateKey
        (wrappedFor dek (wrapRand j).1 (wrapRand j).2 (pubPointOf d))
        (generateKeyPair d).privateKey = .ok dek := by
      simp only [generateKeyPair, wrappedFor, decryptDEKWithPrivateKey,
        keyFromPrivate_natHexStr, keyFromPublic_natHexStr]
      rw [hsec]
      unfold decryptWithAES
      rw [if_pos ⟨rfl, rfl, rfl⟩]
    rw [hdek, hEnc, hIv, hTag]
    have hfinal : ((Except.ok dek : Except String String) >>= fun dk =>
        decryptWithAES Json.stringify { key := dek, iv := iv, plain := data } dk
          iv (gcmTag dek iv (Json.stringify data)) : Except String Json) = .ok data := by
      show decryptWithAES Json.stringify { key := dek, iv := iv, plain := data } dek
        iv (gcmTag dek iv (Json.stringify data)) = .ok data
      unfold decryptWithAES
      rw [if_pos ⟨rfl, rfl, rfl⟩]
    rw [hfinal]

/-- C1 (witness): the recipient key pair of scalar 3 recovers the payload 7
from the concrete two-recipient envelope. -/
theorem envelope_roundtrip_witness :
    decryptEnvelope witnessEnvelope (generateKeyPair 3).privateKey
      (generateKeyPair 3).publicKey =
      { success := true, data := some (Json.num 7), error := none } :=
  envelope_roundtrip (Json.num 7)
    [(generateKeyPair 3).publicKey, (generateKeyPair 5).publicKey]
    "dk" "iv" (fun _ => (1, "wi")) 3 witnessEnvelope
    (by decide) (by decide) (by decide) rfl

/-- C10 (witness): the empty field map against the concrete one-field map
{"a": null}. -/
theorem buildMerkleTree_root_encoding_witness :
    (buildMerkleTree ([] : List (String × Json))).1 = keccak256 "" ∧
    ¬ ("0x".data <+: (buildMerkleTree ([] : List (String × Json))).1.data) ∧
    ("0x".data <+: (buildMerkleTree [("a", Json.null)]).1.data) ∧
    (buildMerkleTree ([] : List (String × Json))).1 ≠
      (buildMerkleTree [("a", Json.null)]).1 :=
  buildMerkleTree_root_encoding [] [("a", Json.null)] rfl (List.cons_ne_nil _ _)

end XDCPrivacy
